import Mathlib

/-!
Verification of the fileshare-cli repository: a shallow embedding of the
configuration store (`src/utils/config.js`), the SFTP client wrapper
(`src/api/sftp.js`), the interactive selection layer (`src/ui/select.js`),
the upload orchestrator (`src/commands/upload.js`) and the setup command's
port validator (`src/commands/setup.js`), together with theorems about the
testable properties of the specification.

Strings are embedded as `List Char` so that the line/character level
operations of the JavaScript code (`split`, `trim`, `startsWith`, `join`)
can be modelled exactly.
-/

namespace Fileshare

/-- A JavaScript string, embedded as a list of characters. -/
abbrev Str := List Char

/-- Whitespace characters removed by JavaScript `String.prototype.trim`
(restricted to the ASCII whitespace that can occur in the data handled
here). -/
def isJsSpace (c : Char) : Bool :=
  c = ' ' || c = '\t' || c = '\n' || c = '\r' || c = '\x0b' || c = '\x0c'

/-- `s.split(c)` of JavaScript: split a string at every occurrence of the
separator character, keeping empty chunks. -/
def splitOnChar (c : Char) : Str → List Str
  | [] => [[]]
  | x :: xs =>
    match splitOnChar c xs with
    | [] => [[]]
    | y :: ys => if x = c then [] :: y :: ys else (x :: y) :: ys

/-- `parts.join(c)` of JavaScript. -/
def joinChar (c : Char) : List Str → Str
  | [] => []
  | [s] => s
  | s :: rest => s ++ c :: joinChar c rest

/-- Left part of JavaScript `trim`. -/
def trimLeft (s : Str) : Str := s.dropWhile isJsSpace

/-- Right part of JavaScript `trim`. -/
def trimRight (s : Str) : Str := (s.reverse.dropWhile isJsSpace).reverse

/-- JavaScript `String.prototype.trim`. -/
def trimStr (s : Str) : Str := trimRight (trimLeft s)

/-- JavaScript `String.prototype.startsWith` with a single-character
prefix. -/
def startsWithChar (c : Char) (s : Str) : Bool :=
  match s with
  | [] => false
  | x :: _ => x = c

/-! ## Configuration store (`src/utils/config.js`) -/

/-- `DEFAULTS` of `config.js`, as an association list in declaration
order. -/
def DEFAULT_ENTRIES : List (Str × Str) :=
  [("SSH_KEY_NAME".toList, "id_ed25519".toList),
   ("SERVER_USER".toList, "root".toList),
   ("SERVER_HOST".toList, "your-server-host.com".toList),
   ("SERVER_DIRECTORY".toList, "/root/fileshare".toList),
   ("SERVER_PORT".toList, "22".toList)]

/-- Lookup in an association list of JavaScript-object entries (first
match wins; entries built by `upsert` have unique keys). -/
def lookupEnv : List (Str × Str) → Str → Option Str
  | [], _ => none
  | (k', v) :: rest, k => if k' = k then some v else lookupEnv rest k

/-- `DEFAULTS[key]` of `config.js` (`none` models `undefined`). -/
def DEFAULTS (key : Str) : Option Str := lookupEnv DEFAULT_ENTRIES key

/-- The recognized configuration keys (those with documented defaults). -/
def RECOGNIZED_KEYS : List Str := DEFAULT_ENTRIES.map Prod.fst

/-- JavaScript object assignment `obj[k] = v` on an association list:
replace the value in place if the key is present, otherwise append the
new entry at the end (JavaScript objects preserve insertion order). -/
def upsert : List (Str × Str) → Str → Str → List (Str × Str)
  | [], k, v => [(k, v)]
  | (k', v') :: rest, k, v =>
    if k' = k then (k', v) :: rest else (k', v') :: upsert rest k v

/-- The process state the configuration store acts on: `process.env`
(as an association list) and the contents of `~/.fileshare/.env`
(`none` when the file does not exist). -/
structure ConfigState where
  env : List (Str × Str)
  file : Option Str

/-- The parsed entry of one line of the `.env` file, following the body
of the `lines.forEach` loop in `saveConfig`: trim the line, skip empty
lines and `#`-comments, split at `=`, require a non-empty raw key, and
trim both the key and the `=`-rejoined remainder. -/
def lineEntry (line : Str) : Option (Str × Str) :=
  let t := trimStr line
  if t = [] then none
  else if startsWithChar '#' t then none
  else
    match splitOnChar '=' t with
    | [] => none
    | k :: rest =>
      if k = [] then none
      else some (trimStr k, trimStr (joinChar '=' rest))

/-- One step of the `lines.forEach` accumulation into `updated`. -/
def parseLine (updated : List (Str × Str)) (line : Str) : List (Str × Str) :=
  match lineEntry line with
  | none => updated
  | some (k, v) => upsert updated k v

/-- `saveConfig`'s parse of the existing `.env` contents: split at
newlines and fold every line into the `updated` object. -/
def parseEnvContent (content : Str) : List (Str × Str) :=
  (splitOnChar '\n' content).foldl parseLine []

/-- The `${k}=${v}` rendering of one entry. -/
def renderEntry (e : Str × Str) : Str := e.1 ++ '=' :: e.2

/-- `saveConfig`'s serialization: `entries.map(k=v).join('\n') + '\n'`. -/
def writeEnvContent (m : List (Str × Str)) : Str :=
  joinChar '\n' (m.map renderEntry) ++ ['\n']

/-- `getConfig(key)` of `config.js`: `process.env[key] || DEFAULTS[key]`
(the default is used when the variable is unset or the empty string). -/
def getConfig (s : ConfigState) (key : Str) : Option Str :=
  match lookupEnv s.env key with
  | some v => if v = [] then DEFAULTS key else some v
  | none => DEFAULTS key

/-- `saveConfig(key, value)` of `config.js`: re-parse the existing file,
assign the new value, write every entry back, and update
`process.env`. -/
def saveConfig (s : ConfigState) (key value : Str) : ConfigState :=
  let envContent := s.file.getD []
  let updated := upsert (parseEnvContent envContent) key value
  { env := upsert s.env key value, file := some (writeEnvContent updated) }

/-- Models the `dotenv` library (external dependency of `loadConfig`):
every key parsed from the file is set into the environment unless the
variable is already present (dotenv's default no-override behavior). -/
def dotenvPopulate (env : List (Str × Str)) (content : Str) : List (Str × Str) :=
  (parseEnvContent content).foldl
    (fun e kv =>
      match lookupEnv e kv.1 with
      | some _ => e
      | none => upsert e kv.1 kv.2)
    env

/-- `loadConfig()` of `config.js`: if the `.env` file exists, load it via
dotenv; otherwise seed `process.env` with each default whose variable is
falsy (absent or empty), without writing a file. -/
def loadConfig (s : ConfigState) : ConfigState :=
  match s.file with
  | some content => { s with env := dotenvPopulate s.env content }
  | none =>
    { s with
      env := DEFAULT_ENTRIES.foldl
        (fun e kv =>
          match lookupEnv e kv.1 with
          | some v => if v = [] then upsert e kv.1 kv.2 else e
          | none => upsert e kv.1 kv.2)
        s.env }

/-- Well-formedness of one parsed configuration entry: exactly the
shape every entry produced by `parseEnvContent` has, and enough to make
its rendered line reparse to itself. -/
def EntryWF (e : Str × Str) : Prop :=
  e.1 ≠ [] ∧ trimStr e.1 = e.1 ∧ '=' ∉ e.1 ∧ '\n' ∉ e.1 ∧
  startsWithChar '#' e.1 = false ∧ trimStr e.2 = e.2 ∧ '\n' ∉ e.2

/-- The key list of an association list. -/
def keysOf (m : List (Str × Str)) : List Str := m.map Prod.fst

/-! ## SFTP client wrapper (`src/api/sftp.js`)

The `ssh2-sftp-client` library is external; its behavior on one run is
modelled as an oracle (`SftpWorld`) giving the outcome of every library
call.  Each public operation of `sftp.js` is embedded as a function from
the oracle (and the configuration state) to its result together with the
trace of session events (`connected` for a successful `sftp.connect`,
`ended` for `sftp.end`), so that connection-leak properties are
statements about the trace. -/

/-- `path.basename(p)`: the part after the last path separator, with
trailing separators stripped first. -/
def basename (p : Str) : Str :=
  let q := (p.reverse.dropWhile (fun c => c = '/')).reverse
  ((splitOnChar '/' q).getLast?).getD []

/-- Result of `sftp.stat`. -/
structure StatInfo where
  isDirectory : Bool
deriving DecidableEq

/-- One raw entry returned by `sftp.list`. -/
structure RawEntry where
  name : Str
  type : Char
  size : Nat
  modifyTime : Nat
deriving DecidableEq

/-- One normalized entry returned by `listFiles`. -/
structure FileEntry where
  name : Str
  type : Str
  size : Nat
  modifyTime : Nat
deriving DecidableEq

/-- Result of `uploadFile` / `uploadFolder`. -/
structure TransferResult where
  filename : Str
  url : Str
deriving DecidableEq

/-- One per-item result of `deleteMultipleFiles`. -/
structure DeleteResult where
  filename : Str
  success : Bool
  error : Option Str
deriving DecidableEq

/-- Oracle for the outcomes of the `ssh2-sftp-client` library calls made
during one command. -/
structure SftpWorld where
  connect : Except Str Unit
  mkdirRecursive : Str → Except Str Unit
  fastPut : Str → Str → Except Str Unit
  uploadDir : Str → Str → Except Str Unit
  existsPath : Str → Bool
  listPath : Str → List RawEntry
  statPath : Str → Except Str StatInfo
  rmdirRecursive : Str → Except Str Unit
  deletePath : Str → Except Str Unit

/-- Session events observable on the wire. -/
inductive SftpEvent where
  | connected
  | ended
deriving DecidableEq

/-- `getConfig` as used by `sftp.js` (every key it reads has a
documented default, so the JavaScript value is always a string). -/
def getConfigStr (s : ConfigState) (key : Str) : Str :=
  (getConfig s key).getD []

/-- `path.posix.join(dir, name)` for the already-normalized absolute
directories and plain file names this program passes to it. -/
def posixJoin (dir name : Str) : Str := dir ++ '/' :: name

/-- The fixed public base URL of `sftp.js`. -/
def publicBase : Str := "https://fileshare.ct-42210.com".toList

/-- `uploadFile(localPath, remoteName, progressCallback)` of `sftp.js`:
connect, ensure the remote directory exists, transfer, and always `end`
the session in the `finally` block.  The progress callback is a pure
display concern and is not part of the model. -/
def uploadFile (w : SftpWorld) (cfg : ConfigState) (localPath : Str)
    (remoteName : Option Str) : Except Str TransferResult × List SftpEvent :=
  match w.connect with
  | .error e => (.error e, [])
  | .ok _ =>
    let filename := remoteName.getD (basename localPath)
    let remoteDir := getConfigStr cfg ("SERVER_DIRECTORY".toList)
    let remotePath := posixJoin remoteDir filename
    let body : Except Str TransferResult :=
      match w.mkdirRecursive remoteDir with
      | .error e => .error e
      | .ok _ =>
        match w.fastPut localPath remotePath with
        | .error e => .error e
        | .ok _ => .ok { filename := filename, url := publicBase ++ '/' :: filename }
    (body, [.connected, .ended])

/-- `uploadFolder(localPath, remoteName)` of `sftp.js`. -/
def uploadFolder (w : SftpWorld) (cfg : ConfigState) (localPath : Str)
    (remoteName : Option Str) : Except Str TransferResult × List SftpEvent :=
  match w.connect with
  | .error e => (.error e, [])
  | .ok _ =>
    let folderName := remoteName.getD (basename localPath)
    let remoteDir := getConfigStr cfg ("SERVER_DIRECTORY".toList)
    let remotePath := posixJoin remoteDir folderName
    let body : Except Str TransferResult :=
      match w.uploadDir localPath remotePath with
      | .error e => .error e
      | .ok _ => .ok { filename := folderName, url := publicBase ++ '/' :: folderName }
    (body, [.connected, .ended])

/-- The normalization of one listed entry in `listFiles`. -/
def normalizeEntry (it : RawEntry) : FileEntry :=
  { name := it.name
    type := if it.type = 'd' then "directory".toList else "file".toList
    size := it.size
    modifyTime := it.modifyTime }

/-- `listFiles()` of `sftp.js`: empty list when the remote directory
does not exist, otherwise the listed entries without `.` and `..`,
normalized. -/
def listFiles (w : SftpWorld) (cfg : ConfigState) :
    Except Str (List FileEntry) × List SftpEvent :=
  match w.connect with
  | .error e => (.error e, [])
  | .ok _ =>
    let remoteDir := getConfigStr cfg ("SERVER_DIRECTORY".toList)
    let body : Except Str (List FileEntry) :=
      if w.existsPath remoteDir = false then .ok []
      else .ok (((w.listPath remoteDir).filter
          (fun it => it.name ≠ ".".toList && it.name ≠ "..".toList)).map normalizeEntry)
    (body, [.connected, .ended])

/-- `deleteFile(filename)` of `sftp.js`: stat the remote path, remove a
directory recursively or delete a single file, always ending the
session. -/
def deleteFile (w : SftpWorld) (cfg : ConfigState) (filename : Str) :
    Except Str Bool × List SftpEvent :=
  match w.connect with
  | .error e => (.error e, [])
  | .ok _ =>
    let remoteDir := getConfigStr cfg ("SERVER_DIRECTORY".toList)
    let remotePath := posixJoin remoteDir filename
    let body : Except Str Bool :=
      match w.statPath remotePath with
      | .error e => .error e
      | .ok st =>
        if st.isDirectory then
          match w.rmdirRecursive remotePath with
          | .error e => .error e
          | .ok _ => .ok true
        else
          match w.deletePath remotePath with
          | .error e => .error e
          | .ok _ => .ok true
    (body, [.connected, .ended])

/-- `deleteMultipleFiles(filenames)` of `sftp.js`: sequential loop,
catching each item's error into its own result entry. -/
def deleteMultipleFiles (w : SftpWorld) (cfg : ConfigState) :
    List Str → List DeleteResult × List SftpEvent
  | [] => ([], [])
  | n :: rest =>
    let r := deleteFile w cfg n
    let item : DeleteResult :=
      match r.1 with
      | .ok _ => { filename := n, success := true, error := none }
      | .error m => { filename := n, success := false, error := some m }
    let tail := deleteMultipleFiles w cfg rest
    (item :: tail.1, r.2 ++ tail.2)

/-- `testConnection()` of `sftp.js`. -/
def testConnection (w : SftpWorld) : Except Str Bool × List SftpEvent :=
  match w.connect with
  | .error e => (.error e, [])
  | .ok _ => (.ok true, [.connected, .ended])

/-! ## Selection layer (`src/ui/select.js`) -/

/-- One entry of the local working directory after `fs.statSync`, as
built in `selectFileOrFolder`. -/
structure FsItem where
  name : Str
  path : Str
  isDirectory : Bool
  size : Nat
deriving DecidableEq

/-- The display name of one choice in `selectFileOrFolder`. -/
def formatChoice (it : FsItem) : Str :=
  if it.isDirectory then it.name ++ "/ (folder)".toList else it.name

/-- The observable outcome of `selectFileOrFolder`: the returned value
and the choice list shown by the prompt (`none` when no prompt was
shown). -/
structure SelectOutcome where
  result : Option FsItem
  promptedChoices : Option (List (Str × FsItem))
deriving DecidableEq

/-- `selectFileOrFolder(directory)` of `select.js`: filter out hidden
entries, return `null` without prompting when nothing remains, otherwise
prompt with the formatted choices.  `entries` is the stat-ed directory
listing and `pick` is the oracle for the user's choice. -/
def selectFileOrFolder (entries : List FsItem) (pick : Nat) : SelectOutcome :=
  let items := entries.filter (fun it => !startsWithChar '.' it.name)
  if items.isEmpty then { result := none, promptedChoices := none }
  else
    { result := items.get? (pick % items.length)
      promptedChoices := some (items.map (fun it => (formatChoice it, it))) }

/-! ## Upload orchestrator (`src/commands/upload.js`) -/

/-- How one command invocation terminates. -/
inductive CmdResult where
  | completed
  | exited (code : Nat)
deriving DecidableEq

/-- The process exit status implied by a command outcome: a command that
returns normally lets the process terminate with status 0. -/
def processExitCode : CmdResult → Nat
  | .completed => 0
  | .exited n => n

/-- `uploadCommand()` of `upload.js`: require configuration (exiting 1
when the SSH key is missing, per `requireConfig` in `errors.js`), select
a file or folder, confirm, then upload, exiting 1 from the catch block
on any transfer error.  `configured` is the result of `isConfigured()`,
`entries`/`pick` drive the selection step and `confirmAnswer` the
confirmation prompt. -/
def uploadCommand (configured : Bool) (entries : List FsItem) (pick : Nat)
    (confirmAnswer : Bool) (w : SftpWorld) (cfg : ConfigState) :
    CmdResult × List SftpEvent :=
  if !configured then (.exited 1, [])
  else
    match (selectFileOrFolder entries pick).result with
    | none => (.completed, [])
    | some item =>
      if !confirmAnswer then (.completed, [])
      else if item.isDirectory then
        let r := uploadFolder w cfg item.path none
        match r.1 with
        | .ok _ => (.completed, r.2)
        | .error _ => (.exited 1, r.2)
      else
        let r := uploadFile w cfg item.path none
        match r.1 with
        | .ok _ => (.completed, r.2)
        | .error _ => (.exited 1, r.2)

/-! ## Port validator (`src/commands/setup.js`) -/

/-- Decimal digit value. -/
def decDigit (c : Char) : Option Nat :=
  if '0' ≤ c ∧ c ≤ '9' then some (c.toNat - '0'.toNat) else none

/-- Hexadecimal digit value. -/
def hexDigit (c : Char) : Option Nat :=
  if '0' ≤ c ∧ c ≤ '9' then some (c.toNat - '0'.toNat)
  else if 'a' ≤ c ∧ c ≤ 'f' then some (c.toNat - 'a'.toNat + 10)
  else if 'A' ≤ c ∧ c ≤ 'F' then some (c.toNat - 'A'.toNat + 10)
  else none

/-- Accumulate the longest leading run of digits. -/
def parseDigits (digit : Char → Option Nat) (base : Nat) : Str → Option Nat → Option Nat
  | [], acc => acc
  | c :: rest, acc =>
    match digit c with
    | none => acc
    | some d => parseDigits digit base rest (some ((acc.getD 0) * base + d))

/-- JavaScript `parseInt(string)` with no radix argument: skip leading
whitespace, read an optional sign, use base 16 after a `0x`/`0X` prefix
and base 10 otherwise, consume the longest digit prefix, and return NaN
(`none`) when no digit was consumed. -/
def jsParseInt (s : Str) : Option Int :=
  let t := s.dropWhile isJsSpace
  let (sign, t1) : Int × Str :=
    match t with
    | '-' :: r => (-1, r)
    | '+' :: r => (1, r)
    | _ => (1, t)
  let (digit, base, t2) : (Char → Option Nat) × Nat × Str :=
    match t1 with
    | '0' :: 'x' :: r => (hexDigit, 16, r)
    | '0' :: 'X' :: r => (hexDigit, 16, r)
    | _ => (decDigit, 10, t1)
  match parseDigits digit base t2 none with
  | none => none
  | some n => some (sign * (n : Int))

/-- Result of an inquirer input validator: `true` or an error message. -/
inductive ValidationResult where
  | ok
  | error (msg : Str)
deriving DecidableEq

/-- The validator of the port prompt in `changeServerPort`
(`setup.js`). -/
def portValidator (input : Str) : ValidationResult :=
  match jsParseInt input with
  | none => .error ("Port must be a number between 1 and 65535".toList)
  | some p =>
    if p < 1 ∨ p > 65535 then
      .error ("Port must be a number between 1 and 65535".toList)
    else .ok

/-! ## Scenario oracles used in concrete instances -/

/-- An oracle on which every library call succeeds and the remote
directory exists but is empty. -/
def okWorld : SftpWorld where
  connect := .ok ()
  mkdirRecursive := fun _ => .ok ()
  fastPut := fun _ _ => .ok ()
  uploadDir := fun _ _ => .ok ()
  existsPath := fun _ => true
  listPath := fun _ => []
  statPath := fun _ => .ok { isDirectory := false }
  rmdirRecursive := fun _ => .ok ()
  deletePath := fun _ => .ok ()

/-- An oracle on which the remote directory does not exist. -/
def absentDirWorld : SftpWorld where
  connect := .ok ()
  mkdirRecursive := fun _ => .ok ()
  fastPut := fun _ _ => .ok ()
  uploadDir := fun _ _ => .ok ()
  existsPath := fun _ => false
  listPath := fun _ => []
  statPath := fun _ => .error ("No such file".toList)
  rmdirRecursive := fun _ => .ok ()
  deletePath := fun _ => .ok ()

/-- An oracle on which only the remote path `/root/fileshare/b` is
missing (its `stat` fails); everything else succeeds. -/
def missingBWorld : SftpWorld where
  connect := .ok ()
  mkdirRecursive := fun _ => .ok ()
  fastPut := fun _ _ => .ok ()
  uploadDir := fun _ _ => .ok ()
  existsPath := fun _ => true
  listPath := fun _ => []
  statPath := fun p =>
    if p = "/root/fileshare/b".toList then .error ("No such file".toList)
    else .ok { isDirectory := false }
  rmdirRecursive := fun _ => .ok ()
  deletePath := fun _ => .ok ()

/-- A fresh process state: empty environment, no settings file. -/
def cfg0 : ConfigState := { env := [], file := none }

/-- Traces in which every successfully opened session has been ended. -/
def sessionsBalanced (t : List SftpEvent) : Prop :=
  t.count .connected = t.count .ended

/-! ## Basic lemmas about the association-list operations -/

theorem upsert_ne_nil (m : List (Str × Str)) (k v : Str) : upsert m k v ≠ [] := by
  cases m with
  | nil => simp [upsert]
  | cons e rest =>
    obtain ⟨k', v'⟩ := e
    by_cases h : k' = k <;> simp [upsert, h]

theorem lookupEnv_upsert_self (m : List (Str × Str)) (k v : Str) :
    lookupEnv (upsert m k v) k = some v := by
  induction m with
  | nil => simp [upsert, lookupEnv]
  | cons e rest ih =>
    obtain ⟨k', v'⟩ := e
    by_cases h : k' = k <;> simp [upsert, lookupEnv, h, ih]

theorem lookupEnv_upsert_ne (m : List (Str × Str)) (k v k' : Str) (h : k' ≠ k) :
    lookupEnv (upsert m k v) k' = lookupEnv m k' := by
  induction m with
  | nil =>
    simp only [upsert, lookupEnv]
    rw [if_neg (fun hc => h hc.symm)]
  | cons e rest ih =>
    obtain ⟨k₁, v₁⟩ := e
    by_cases hk : k₁ = k
    · subst hk
      simp only [upsert, if_pos rfl, lookupEnv]
      rw [if_neg (fun hc => h hc.symm), if_neg (fun hc => h hc.symm)]
    · simp only [upsert, if_neg hk, lookupEnv, ih]

theorem mem_upsert {m : List (Str × Str)} {k v : Str} {e : Str × Str}
    (h : e ∈ upsert m k v) : e = (k, v) ∨ e ∈ m := by
  induction m with
  | nil => simpa [upsert] using h
  | cons e₁ rest ih =>
    obtain ⟨k₁, v₁⟩ := e₁
    by_cases hk : k₁ = k
    · subst hk
      rw [upsert, if_pos rfl] at h
      rcases List.mem_cons.mp h with h₁ | h₁
      · exact Or.inl h₁
      · exact Or.inr (List.mem_cons_of_mem _ h₁)
    · rw [upsert, if_neg hk] at h
      rcases List.mem_cons.mp h with h₁ | h₁
      · exact Or.inr (List.mem_cons.mpr (Or.inl h₁))
      · rcases ih h₁ with h₂ | h₂
        · exact Or.inl h₂
        · exact Or.inr (List.mem_cons_of_mem _ h₂)

/-! ## Lemmas for the configuration file round-trip -/

theorem splitOnChar_cons (c x : Char) (xs : Str) :
    splitOnChar c (x :: xs) =
      match splitOnChar c xs with
      | [] => [[]]
      | y :: ys => if x = c then [] :: y :: ys else (x :: y) :: ys := rfl

theorem splitOnChar_ne_nil (c : Char) (s : Str) : splitOnChar c s ≠ [] := by
  cases s with
  | nil => simp [splitOnChar]
  | cons x xs =>
    rw [splitOnChar_cons]
    cases h : splitOnChar c xs with
    | nil => simp
    | cons y ys => by_cases hx : x = c <;> simp [hx]

theorem splitOnChar_not_mem {c : Char} {s : Str} (h : c ∉ s) : splitOnChar c s = [s] := by
  induction s with
  | nil => rfl
  | cons x xs ih =>
    have hx : ¬ x = c := fun hh => h (hh ▸ List.mem_cons_self _ _)
    have hxs : c ∉ xs := fun hm => h (List.mem_cons_of_mem _ hm)
    rw [splitOnChar_cons, ih hxs]
    dsimp only
    rw [if_neg hx]

theorem splitOnChar_append_cons {c : Char} {a : Str} (h : c ∉ a) (b : Str) :
    splitOnChar c (a ++ c :: b) = a :: splitOnChar c b := by
  induction a with
  | nil =>
    rw [List.nil_append, splitOnChar_cons]
    cases hs : splitOnChar c b with
    | nil => exact absurd hs (splitOnChar_ne_nil c b)
    | cons y ys => simp
  | cons x xs ih =>
    have hx : ¬ x = c := fun hh => h (hh ▸ List.mem_cons_self _ _)
    have hxs : c ∉ xs := fun hm => h (List.mem_cons_of_mem _ hm)
    rw [List.cons_append, splitOnChar_cons, ih hxs]
    dsimp only
    rw [if_neg hx]

theorem joinChar_splitOnChar (c : Char) (s : Str) : joinChar c (splitOnChar c s) = s := by
  induction s with
  | nil => rfl
  | cons x xs ih =>
    rw [splitOnChar_cons]
    cases h : splitOnChar c xs with
    | nil => exact absurd h (splitOnChar_ne_nil c xs)
    | cons y ys =>
      rw [h] at ih
      dsimp only
      by_cases hx : x = c
      · subst hx
        rw [if_pos rfl]
        show [] ++ x :: joinChar x (y :: ys) = x :: xs
        rw [List.nil_append, ih]
      · rw [if_neg hx]
        cases ys with
        | nil =>
          show x :: y = x :: xs
          rw [show y = xs from ih]
        | cons z zs =>
          show (x :: y) ++ c :: joinChar c (z :: zs) = x :: xs
          have hy : y ++ c :: joinChar c (z :: zs) = xs := ih
          rw [List.cons_append, hy]

theorem mem_joinChar_of_mem {c : Char} {x : Char} {l : Str} {ls : List Str}
    (hl : l ∈ ls) (hx : x ∈ l) : x ∈ joinChar c ls := by
  induction ls with
  | nil => cases hl
  | cons l1 rest ih =>
    cases rest with
    | nil =>
      rcases List.mem_cons.mp hl with h | h
      · subst h; exact hx
      · cases h
    | cons l2 rest2 =>
      show x ∈ l1 ++ c :: joinChar c (l2 :: rest2)
      rcases List.mem_cons.mp hl with h | h
      · subst h; exact List.mem_append_left _ hx
      · exact List.mem_append_right _ (List.mem_cons_of_mem _ (ih h))

theorem mem_of_mem_splitOnChar {c x : Char} {l s : Str}
    (hl : l ∈ splitOnChar c s) (hx : x ∈ l) : x ∈ s := by
  have := mem_joinChar_of_mem (c := c) hl hx
  rwa [joinChar_splitOnChar] at this

theorem not_mem_of_mem_splitOnChar {c : Char} {l s : Str}
    (hl : l ∈ splitOnChar c s) : c ∉ l := by
  induction s generalizing l with
  | nil =>
    simp only [splitOnChar, List.mem_singleton] at hl
    subst hl; simp
  | cons x xs ih =>
    rw [splitOnChar_cons] at hl
    cases h : splitOnChar c xs with
    | nil => exact absurd h (splitOnChar_ne_nil c xs)
    | cons y ys =>
      rw [h] at hl
      dsimp only at hl
      by_cases hx : x = c
      · rw [if_pos hx] at hl
        rcases List.mem_cons.mp hl with h1 | h1
        · subst h1; simp
        · exact ih (h ▸ h1)
      · rw [if_neg hx] at hl
        rcases List.mem_cons.mp hl with h1 | h1
        · subst h1
          intro hmem
          rcases List.mem_cons.mp hmem with h2 | h2
          · exact hx h2.symm
          · exact ih (h ▸ List.mem_cons_self y ys) h2
        · exact ih (h ▸ List.mem_cons_of_mem _ h1)

theorem splitOnChar_join_append {c : Char} {ls : List Str} (t : Str)
    (hne : ls ≠ []) (h : ∀ l ∈ ls, c ∉ l) :
    splitOnChar c (joinChar c ls ++ c :: t) = ls ++ splitOnChar c t := by
  induction ls with
  | nil => exact absurd rfl hne
  | cons l rest ih =>
    cases rest with
    | nil =>
      show splitOnChar c (l ++ c :: t) = l :: splitOnChar c t
      exact splitOnChar_append_cons (h l (List.mem_cons_self _ _)) t
    | cons l2 rest2 =>
      show splitOnChar c ((l ++ c :: joinChar c (l2 :: rest2)) ++ c :: t)
        = (l :: l2 :: rest2) ++ splitOnChar c t
      rw [List.append_assoc, List.cons_append]
      rw [splitOnChar_append_cons (h l (List.mem_cons_self _ _))]
      rw [ih (by simp) (fun l' hl' => h l' (List.mem_cons_of_mem _ hl'))]
      rfl

-- Lemmas about dropWhile and trimming

theorem length_dropWhile_le' (p : Char → Bool) (l : Str) :
    (l.dropWhile p).length ≤ l.length := by
  induction l with
  | nil => simp
  | cons x xs ih =>
    rw [List.dropWhile_cons]
    by_cases hp : p x = true
    · rw [if_pos hp]; exact Nat.le_trans ih (Nat.le_succ _)
    · rw [if_neg hp]

theorem dropWhile_eq_self_of_length (p : Char → Bool) (l : Str)
    (h : (l.dropWhile p).length = l.length) : l.dropWhile p = l := by
  cases l with
  | nil => rfl
  | cons x xs =>
    rw [List.dropWhile_cons] at h ⊢
    by_cases hp : p x = true
    · rw [if_pos hp] at h
      have := length_dropWhile_le' p xs
      simp at h
      omega
    · rw [if_neg hp]

theorem mem_dropWhile (p : Char → Bool) (l : Str) {x : Char}
    (h : x ∈ l.dropWhile p) : x ∈ l := by
  induction l with
  | nil => simp at h
  | cons y ys ih =>
    rw [List.dropWhile_cons] at h
    by_cases hp : p y = true
    · rw [if_pos hp] at h
      exact List.mem_cons_of_mem _ (ih h)
    · rw [if_neg hp] at h
      exact h

theorem dropWhile_append_of_ne_nil (p : Char → Bool) (l1 l2 : Str)
    (h : l1.dropWhile p ≠ []) :
    (l1 ++ l2).dropWhile p = l1.dropWhile p ++ l2 := by
  induction l1 with
  | nil => exact absurd rfl h
  | cons x xs ih =>
    rw [List.cons_append, List.dropWhile_cons, List.dropWhile_cons]
    by_cases hp : p x = true
    · rw [if_pos hp, if_pos hp]
      rw [List.dropWhile_cons, if_pos hp] at h
      exact ih h
    · rw [if_neg hp, if_neg hp, List.cons_append]

theorem dropWhile_append_of_nil (p : Char → Bool) (l1 l2 : Str)
    (h : l1.dropWhile p = []) :
    (l1 ++ l2).dropWhile p = l2.dropWhile p := by
  induction l1 with
  | nil => simp
  | cons x xs ih =>
    rw [List.dropWhile_cons] at h
    by_cases hp : p x = true
    · rw [List.cons_append, List.dropWhile_cons, if_pos hp]
      rw [if_pos hp] at h
      exact ih h
    · rw [if_neg hp] at h
      cases h

theorem head_dropWhile_false (p : Char → Bool) (l : Str) {x : Char}
    (h : (l.dropWhile p).head? = some x) : p x = false := by
  induction l with
  | nil => simp at h
  | cons y ys ih =>
    rw [List.dropWhile_cons] at h
    by_cases hp : p y = true
    · rw [if_pos hp] at h; exact ih h
    · rw [if_neg hp] at h
      have hyx : y = x := by simpa using h
      rw [← hyx]
      exact Bool.eq_false_iff.mpr hp

theorem dropWhile_idem (p : Char → Bool) (l : Str) :
    (l.dropWhile p).dropWhile p = l.dropWhile p := by
  induction l with
  | nil => rfl
  | cons x xs ih =>
    rw [List.dropWhile_cons]
    by_cases hp : p x = true
    · rw [if_pos hp]; exact ih
    · rw [if_neg hp, List.dropWhile_cons, if_neg hp]

theorem dropWhile_suffix (p : Char → Bool) (l : Str) : l.dropWhile p <:+ l := by
  induction l with
  | nil => exact ⟨[], rfl⟩
  | cons x xs ih =>
    rw [List.dropWhile_cons]
    by_cases hp : p x = true
    · rw [if_pos hp]
      obtain ⟨t, ht⟩ := ih
      exact ⟨x :: t, by rw [List.cons_append, ht]⟩
    · rw [if_neg hp]

-- trim lemmas

theorem trimLeft_cons_false {x : Char} (s : Str) (h : isJsSpace x = false) :
    trimLeft (x :: s) = x :: s := by
  unfold trimLeft
  rw [List.dropWhile_cons, if_neg (by simp [h])]

theorem length_trimLeft_le (s : Str) : (trimLeft s).length ≤ s.length :=
  length_dropWhile_le' _ s

theorem length_trimRight_le (s : Str) : (trimRight s).length ≤ s.length := by
  unfold trimRight
  rw [List.length_reverse]
  calc (s.reverse.dropWhile isJsSpace).length ≤ s.reverse.length :=
        length_dropWhile_le' _ _
    _ = s.length := List.length_reverse s

theorem trimLeft_eq_self_of_trimmed {s : Str} (h : trimStr s = s) : trimLeft s = s := by
  have h1 : (trimStr s).length = s.length := by rw [h]
  have h2 : (trimStr s).length ≤ (trimLeft s).length := by
    unfold trimStr
    exact length_trimRight_le _
  have h3 : (trimLeft s).length ≤ s.length := length_trimLeft_le s
  have h4 : (trimLeft s).length = s.length := by omega
  exact dropWhile_eq_self_of_length _ _ h4

theorem trimRight_eq_self_of_trimmed {s : Str} (h : trimStr s = s) : trimRight s = s := by
  have h1 := trimLeft_eq_self_of_trimmed h
  unfold trimStr at h
  rwa [h1] at h

theorem trimRight_pre (s : Str) : trimRight s <+: s := by
  obtain ⟨t, ht⟩ := dropWhile_suffix isJsSpace s.reverse
  refine ⟨t.reverse, ?_⟩
  have := congrArg List.reverse ht
  rw [List.reverse_append, List.reverse_reverse] at this
  exact this

theorem head_of_pre {l₁ l₂ : Str} (h : l₁ <+: l₂) (hne : l₁ ≠ []) :
    l₁.head? = l₂.head? := by
  obtain ⟨t, rfl⟩ := h
  cases l₁ with
  | nil => exact absurd rfl hne
  | cons x xs => rfl

theorem mem_trimRight {s : Str} {x : Char} (h : x ∈ trimRight s) : x ∈ s := by
  unfold trimRight at h
  rw [List.mem_reverse] at h
  exact List.mem_reverse.mp (mem_dropWhile _ _ h)

theorem mem_trimStr {s : Str} {x : Char} (h : x ∈ trimStr s) : x ∈ s := by
  unfold trimStr at h
  exact mem_dropWhile _ _ (mem_trimRight h)

theorem trimStr_head_false {s : Str} {x : Char} (h : (trimStr s).head? = some x) :
    isJsSpace x = false := by
  unfold trimStr at h
  have hne : trimRight (trimLeft s) ≠ [] := by
    intro hnil; rw [hnil] at h; cases h
  rw [head_of_pre (trimRight_pre _) hne] at h
  exact head_dropWhile_false _ _ h

theorem trimRight_idem (s : Str) : trimRight (trimRight s) = trimRight s := by
  unfold trimRight
  rw [List.reverse_reverse, dropWhile_idem]

theorem trimLeft_eq_self_of_head {s : Str}
    (h : ∀ x, s.head? = some x → isJsSpace x = false) : trimLeft s = s := by
  cases s with
  | nil => rfl
  | cons x xs => exact trimLeft_cons_false xs (h x rfl)

theorem trimStr_idem (s : Str) : trimStr (trimStr s) = trimStr s := by
  have h1 : trimLeft (trimStr s) = trimStr s :=
    trimLeft_eq_self_of_head (fun x hx => trimStr_head_false hx)
  show trimRight (trimLeft (trimStr s)) = trimStr s
  rw [h1]
  show trimRight (trimRight (trimLeft s)) = trimStr s
  rw [trimRight_idem]
  rfl

theorem trimRight_append_cons (a : Str) {c : Char} (b : Str)
    (hc : isJsSpace c = false) :
    trimRight (a ++ c :: b) = a ++ c :: trimRight b := by
  unfold trimRight
  have hrev : (a ++ c :: b).reverse = b.reverse ++ c :: a.reverse := by
    rw [List.reverse_append, List.reverse_cons, List.append_assoc]
    rfl
  rw [hrev]
  by_cases h0 : b.reverse.dropWhile isJsSpace = []
  · rw [dropWhile_append_of_nil _ _ _ h0, List.dropWhile_cons,
      if_neg (by simp [hc]), h0]
    rw [List.reverse_cons]
    simp
  · rw [dropWhile_append_of_ne_nil _ _ _ h0, List.reverse_append]
    rw [List.reverse_cons]
    simp

theorem trimLeft_append_eq (a b : Str) (ha : trimLeft a = a) (hne : a ≠ []) :
    trimLeft (a ++ b) = a ++ b := by
  cases a with
  | nil => exact absurd rfl hne
  | cons x xs =>
    have hx : isJsSpace x = false := by
      unfold trimLeft at ha
      rw [List.dropWhile_cons] at ha
      by_cases hp : isJsSpace x = true
      · rw [if_pos hp] at ha
        have := length_dropWhile_le' isJsSpace xs
        have hlen := congrArg List.length ha
        simp at hlen
        omega
      · exact Bool.eq_false_iff.mpr hp
    rw [List.cons_append]
    exact trimLeft_cons_false _ hx

-- Rendering and reparsing of one entry line

theorem dropWhile_eq_nil_forall (p : Char → Bool) (l : Str)
    (h : l.dropWhile p = []) : ∀ x ∈ l, p x = true := by
  induction l with
  | nil => intro x hx; cases hx
  | cons y ys ih =>
    rw [List.dropWhile_cons] at h
    by_cases hp : p y = true
    · rw [if_pos hp] at h
      intro x hx
      rcases List.mem_cons.mp hx with h1 | h1
      · rw [h1]; exact hp
      · exact ih h x h1
    · rw [if_neg hp] at h
      cases h

theorem mem_joinChar_elim {c x : Char} {ls : List Str}
    (h : x ∈ joinChar c ls) : x = c ∨ ∃ l ∈ ls, x ∈ l := by
  induction ls with
  | nil => cases h
  | cons l1 rest ih =>
    cases rest with
    | nil => exact Or.inr ⟨l1, List.mem_cons_self _ _, h⟩
    | cons l2 rest2 =>
      have h' : x ∈ l1 ++ c :: joinChar c (l2 :: rest2) := h
      rcases List.mem_append.mp h' with h1 | h1
      · exact Or.inr ⟨l1, List.mem_cons_self _ _, h1⟩
      · rcases List.mem_cons.mp h1 with h2 | h2
        · exact Or.inl h2
        · rcases ih h2 with h3 | ⟨l, hl, hx⟩
          · exact Or.inl h3
          · exact Or.inr ⟨l, List.mem_cons_of_mem _ hl, hx⟩

theorem trimStr_render (kk vv : Str) (h1 : trimStr kk = kk) :
    trimStr (kk ++ '=' :: vv) = kk ++ '=' :: trimRight vv := by
  have heq : isJsSpace '=' = false := by decide
  have hL : trimLeft (kk ++ '=' :: vv) = kk ++ '=' :: vv := by
    cases hk : kk with
    | nil =>
      rw [List.nil_append]
      exact trimLeft_cons_false _ heq
    | cons x xs =>
      rw [← hk]
      refine trimLeft_append_eq _ _ (trimLeft_eq_self_of_trimmed h1) ?_
      rw [hk]; exact List.cons_ne_nil _ _
  show trimRight (trimLeft (kk ++ '=' :: vv)) = kk ++ '=' :: trimRight vv
  rw [hL]
  exact trimRight_append_cons kk vv heq

theorem lineEntry_render (kk vv : Str) (h1 : trimStr kk = kk) (h2 : '=' ∉ kk) :
    lineEntry (renderEntry (kk, vv)) =
      if kk = [] then none
      else if startsWithChar '#' kk then none
      else some (kk, trimStr (trimRight vv)) := by
  have hts := trimStr_render kk vv h1
  show lineEntry (kk ++ '=' :: vv) = _
  by_cases hk0 : kk = []
  · subst hk0
    have hts' : trimStr ('=' :: vv) = '=' :: trimRight vv := by simpa using hts
    unfold lineEntry
    rw [List.nil_append, hts']
    rw [if_neg (List.cons_ne_nil _ _)]
    rw [if_neg (show ¬startsWithChar '#' ('=' :: trimRight vv) = true from by
      simp [startsWithChar])]
    rw [if_pos rfl]
    rw [splitOnChar_cons]
    cases hsv : splitOnChar '=' (trimRight vv) with
    | nil => exact absurd hsv (splitOnChar_ne_nil _ _)
    | cons y ys =>
      dsimp only
      rw [if_pos rfl]
      dsimp only
      rw [if_pos rfl]
  · unfold lineEntry
    rw [hts]
    have hne1 : kk ++ '=' :: trimRight vv ≠ [] := by
      cases kk with
      | nil => exact absurd rfl hk0
      | cons a b => simp
    rw [if_neg hne1, if_neg hk0]
    have hsw : startsWithChar '#' (kk ++ '=' :: trimRight vv) = startsWithChar '#' kk := by
      cases kk with
      | nil => exact absurd rfl hk0
      | cons a b => rfl
    rw [hsw]
    by_cases hxh : startsWithChar '#' kk = true
    · rw [if_pos hxh, if_pos hxh]
    · rw [if_neg hxh, if_neg hxh]
      rw [splitOnChar_append_cons h2]
      dsimp only
      rw [if_neg hk0, h1, joinChar_splitOnChar]

theorem lineEntry_render_self {e : Str × Str} (h : EntryWF e) :
    lineEntry (renderEntry e) = some e := by
  obtain ⟨kk, vv⟩ := e
  obtain ⟨hne, ht, heq, _, hhash, htv, _⟩ := h
  rw [lineEntry_render kk vv ht heq, if_neg hne, if_neg (by simp [hhash])]
  rw [trimRight_eq_self_of_trimmed htv, htv]

theorem lineEntry_render_key {kk vv : Str} (h1 : trimStr kk = kk) (h2 : '=' ∉ kk)
    {p : Str × Str} (h : lineEntry (renderEntry (kk, vv)) = some p) : p.1 = kk := by
  rw [lineEntry_render kk vv h1 h2] at h
  by_cases hk : kk = []
  · rw [if_pos hk] at h; cases h
  · rw [if_neg hk] at h
    by_cases hh : startsWithChar '#' kk = true
    · rw [if_pos hh] at h; cases h
    · rw [if_neg hh] at h
      rw [← Option.some.inj h]

-- Every entry produced by parsing is well-formed

theorem lineEntry_WF {line : Str} {e : Str × Str}
    (h : lineEntry line = some e) (hn : '\n' ∉ line) : EntryWF e := by
  unfold lineEntry at h
  by_cases h0 : trimStr line = []
  · rw [if_pos h0] at h; cases h
  · rw [if_neg h0] at h
    by_cases hh : startsWithChar '#' (trimStr line) = true
    · rw [if_pos hh] at h; cases h
    · rw [if_neg hh] at h
      cases hs : splitOnChar '=' (trimStr line) with
      | nil => exact absurd hs (splitOnChar_ne_nil _ _)
      | cons k rest =>
        rw [hs] at h
        dsimp only at h
        by_cases hk : k = []
        · rw [if_pos hk] at h; cases h
        · rw [if_neg hk] at h
          have he : e = (trimStr k, trimStr (joinChar '=' rest)) :=
            (Option.some.inj h).symm
          subst he
          cases ht : trimStr line with
          | nil => exact absurd ht h0
          | cons x0 t0 =>
            have hx0s : isJsSpace x0 = false :=
              trimStr_head_false (by rw [ht]; rfl)
            have hx0ne : x0 ≠ '#' := by
              intro hx
              apply hh
              rw [ht]
              unfold startsWithChar
              simp [hx]
            have hj : joinChar '=' (k :: rest) = trimStr line := by
              rw [← hs, joinChar_splitOnChar]
            have hkpre : k <+: trimStr line := by
              cases rest with
              | nil => exact ⟨[], by simpa using hj⟩
              | cons r rs => exact ⟨'=' :: joinChar '=' (r :: rs), hj⟩
            have hkh : k.head? = some x0 := by
              rw [head_of_pre hkpre hk, ht]; rfl
            have hkL : trimLeft k = k := by
              refine trimLeft_eq_self_of_head (fun y hy => ?_)
              rw [hkh] at hy
              obtain rfl : x0 = y := Option.some.inj hy
              exact hx0s
            have hkey_eq : trimStr k = trimRight k := by
              unfold trimStr; rw [hkL]
            have hkR_ne : trimRight k ≠ [] := by
              intro hnil
              have hdw : k.reverse.dropWhile isJsSpace = [] := by
                unfold trimRight at hnil
                rwa [List.reverse_eq_nil_iff] at hnil
              have hall := dropWhile_eq_nil_forall isJsSpace k.reverse hdw
              have hx0mem : x0 ∈ k := by
                cases k with
                | nil => cases hkh
                | cons a b =>
                  obtain rfl : a = x0 := Option.some.inj hkh
                  exact List.mem_cons_self _ _
              have := hall x0 (List.mem_reverse.mpr hx0mem)
              rw [hx0s] at this
              cases this
            have hkmem : k ∈ splitOnChar '=' (trimStr line) := by
              rw [hs]; exact List.mem_cons_self _ _
            refine ⟨?_, trimStr_idem k, ?_, ?_, ?_, trimStr_idem _, ?_⟩
            · rw [hkey_eq]; exact hkR_ne
            · intro hm
              exact not_mem_of_mem_splitOnChar hkmem (mem_trimStr hm)
            · intro hm
              exact hn (mem_trimStr (mem_of_mem_splitOnChar hkmem (mem_trimStr hm)))
            · rw [hkey_eq]
              cases htr : trimRight k with
              | nil => exact absurd htr hkR_ne
              | cons a b =>
                have hah : (trimRight k).head? = k.head? :=
                  head_of_pre (trimRight_pre k) hkR_ne
                rw [htr, hkh] at hah
                obtain rfl : a = x0 := Option.some.inj hah
                unfold startsWithChar
                simp [hx0ne]
            · intro hm
              have hjm := mem_trimStr hm
              rcases mem_joinChar_elim hjm with h1 | ⟨l, hl, hxl⟩
              · cases h1
              · have hlm : l ∈ splitOnChar '=' (trimStr line) := by
                  rw [hs]; exact List.mem_cons_of_mem _ hl
                exact hn (mem_trimStr (mem_of_mem_splitOnChar hlm hxl))

-- Keys, uniqueness, and lookup through the parse fold

theorem keysOf_upsert (m : List (Str × Str)) (k v : Str) :
    keysOf (upsert m k v) = if k ∈ keysOf m then keysOf m else keysOf m ++ [k] := by
  induction m with
  | nil => simp [upsert, keysOf]
  | cons e rest ih =>
    obtain ⟨k1, v1⟩ := e
    by_cases hk : k1 = k
    · subst hk
      simp [upsert, keysOf]
    · rw [upsert, if_neg hk]
      show k1 :: keysOf (upsert rest k v) = _
      rw [ih]
      by_cases hm : k ∈ keysOf rest
      · rw [if_pos hm, if_pos (by
          show k ∈ keysOf ((k1, v1) :: rest)
          exact List.mem_cons_of_mem _ hm)]
        rfl
      · rw [if_neg hm, if_neg (by
          show ¬ k ∈ keysOf ((k1, v1) :: rest)
          intro hc
          rcases List.mem_cons.mp hc with h1 | h1
          · exact hk h1.symm
          · exact hm h1)]
        rfl

theorem keysOf_upsert_nodup (m : List (Str × Str)) (k v : Str)
    (h : (keysOf m).Nodup) : (keysOf (upsert m k v)).Nodup := by
  rw [keysOf_upsert]
  by_cases hm : k ∈ keysOf m
  · rw [if_pos hm]; exact h
  · rw [if_neg hm]
    rw [List.nodup_append]
    exact ⟨h, List.nodup_singleton _, by simpa using hm⟩

theorem keysOf_parseLine_nodup (acc : List (Str × Str)) (line : Str)
    (h : (keysOf acc).Nodup) : (keysOf (parseLine acc line)).Nodup := by
  unfold parseLine
  cases hE : lineEntry line with
  | none => exact h
  | some p =>
    obtain ⟨k, v⟩ := p
    exact keysOf_upsert_nodup acc k v h

theorem keysOf_foldl_parseLine_nodup (lines : List Str) (acc : List (Str × Str))
    (h : (keysOf acc).Nodup) :
    (keysOf (lines.foldl parseLine acc)).Nodup := by
  induction lines generalizing acc with
  | nil => exact h
  | cons l ls ih => exact ih _ (keysOf_parseLine_nodup acc l h)

theorem parseEnvContent_keys_nodup (c : Str) : (keysOf (parseEnvContent c)).Nodup := by
  unfold parseEnvContent
  exact keysOf_foldl_parseLine_nodup _ [] (by simp [keysOf])

theorem mem_foldl_parseLine {lines : List Str} {acc : List (Str × Str)}
    {e : Str × Str} (h : e ∈ lines.foldl parseLine acc) :
    e ∈ acc ∨ ∃ line ∈ lines, lineEntry line = some e := by
  induction lines generalizing acc with
  | nil => exact Or.inl h
  | cons l ls ih =>
    rw [List.foldl_cons] at h
    rcases ih h with h1 | ⟨line, hl, hE⟩
    · unfold parseLine at h1
      cases hE : lineEntry l with
      | none => rw [hE] at h1; exact Or.inl h1
      | some p =>
        obtain ⟨k, v⟩ := p
        rw [hE] at h1
        dsimp only at h1
        rcases mem_upsert h1 with h2 | h2
        · exact Or.inr ⟨l, List.mem_cons_self _ _, by rw [hE, h2]⟩
        · exact Or.inl h2
    · exact Or.inr ⟨line, List.mem_cons_of_mem _ hl, hE⟩

theorem parseEnvContent_WF (c : Str) {e : Str × Str}
    (h : e ∈ parseEnvContent c) : EntryWF e := by
  unfold parseEnvContent at h
  rcases mem_foldl_parseLine h with h1 | ⟨line, hl, hE⟩
  · cases h1
  · exact lineEntry_WF hE (not_mem_of_mem_splitOnChar hl)

theorem lookupEnv_eq_none_of_not_mem {m : List (Str × Str)} {k : Str}
    (h : k ∉ keysOf m) : lookupEnv m k = none := by
  induction m with
  | nil => rfl
  | cons e rest ih =>
    obtain ⟨k1, v1⟩ := e
    have hk1 : k1 ≠ k := by
      intro hc
      exact h (by rw [hc]; exact List.mem_cons_self _ _)
    rw [lookupEnv, if_neg hk1]
    exact ih (fun hc => h (List.mem_cons_of_mem _ hc))

theorem lookupEnv_foldl_render (M : List (Str × Str)) (k' : Str)
    (hnd : (keysOf M).Nodup)
    (hkey : ∀ e ∈ M, ∀ p, lineEntry (renderEntry e) = some p → p.1 = e.1)
    (hval : ∀ e ∈ M, e.1 = k' → lineEntry (renderEntry e) = some e) :
    ∀ acc : List (Str × Str),
      lookupEnv ((M.map renderEntry).foldl parseLine acc) k' =
        if k' ∈ keysOf M then lookupEnv M k' else lookupEnv acc k' := by
  induction M with
  | nil =>
    intro acc
    rw [if_neg (by simp [keysOf])]
    rfl
  | cons e rest ih =>
    intro acc
    obtain ⟨k1, v1⟩ := e
    rw [List.map_cons, List.foldl_cons]
    have hnd' : (keysOf rest).Nodup := by
      rw [show keysOf ((k1, v1) :: rest) = k1 :: keysOf rest from rfl] at hnd
      exact (List.nodup_cons.mp hnd).2
    have hk1nm : k1 ∉ keysOf rest := by
      rw [show keysOf ((k1, v1) :: rest) = k1 :: keysOf rest from rfl] at hnd
      exact (List.nodup_cons.mp hnd).1
    have hkey' : ∀ e ∈ rest, ∀ p, lineEntry (renderEntry e) = some p → p.1 = e.1 :=
      fun e he => hkey e (List.mem_cons_of_mem _ he)
    have hval' : ∀ e ∈ rest, e.1 = k' → lineEntry (renderEntry e) = some e :=
      fun e he => hval e (List.mem_cons_of_mem _ he)
    rw [ih hnd' hkey' hval' (parseLine acc (renderEntry (k1, v1)))]
    by_cases hk : k' ∈ keysOf rest
    · rw [if_pos hk, if_pos (show k' ∈ keysOf ((k1, v1) :: rest) from
        List.mem_cons_of_mem _ hk)]
      have hne : k1 ≠ k' := fun hc => hk1nm (hc ▸ hk)
      rw [lookupEnv, if_neg hne]
    · rw [if_neg hk]
      by_cases hk1 : k1 = k'
      · rw [if_pos (show k' ∈ keysOf ((k1, v1) :: rest) from by
          rw [← hk1]; exact List.mem_cons_self _ _)]
        have hE := hval (k1, v1) (List.mem_cons_self _ _) hk1
        unfold parseLine
        rw [hE]
        dsimp only
        rw [lookupEnv, if_pos hk1]
        rw [← hk1, lookupEnv_upsert_self]
      · rw [if_neg (show ¬ k' ∈ keysOf ((k1, v1) :: rest) from by
          intro hc
          rcases List.mem_cons.mp hc with h1 | h1
          · exact hk1 h1.symm
          · exact hk h1)]
        unfold parseLine
        cases hE : lineEntry (renderEntry (k1, v1)) with
        | none => rfl
        | some p =>
          obtain ⟨pk, pv⟩ := p
          have hpk : pk = k1 := hkey (k1, v1) (List.mem_cons_self _ _) (pk, pv) hE
          dsimp only
          rw [hpk]
          exact lookupEnv_upsert_ne acc k1 pv k' (fun hc => hk1 hc.symm)

theorem splitOnChar_writeEnvContent (M : List (Str × Str)) (hne : M ≠ [])
    (h : ∀ e ∈ M, '\n' ∉ renderEntry e) :
    splitOnChar '\n' (writeEnvContent M) = M.map renderEntry ++ [[]] := by
  unfold writeEnvContent
  have h1 : M.map renderEntry ≠ [] := by
    cases M with
    | nil => exact absurd rfl hne
    | cons a b => simp
  have h2 : ∀ l ∈ M.map renderEntry, '\n' ∉ l := by
    intro l hl
    obtain ⟨e, he, rfl⟩ := List.mem_map.mp hl
    exact h e he
  have h3 := splitOnChar_join_append [] h1 h2
  rw [show splitOnChar '\n' ([] : Str) = [[]] from rfl] at h3
  exact h3

theorem parseLine_nil (acc : List (Str × Str)) : parseLine acc [] = acc := rfl

theorem saveConfig_preserves_file (c k v : Str)
    (hkt : trimStr k = k) (hkeq : '=' ∉ k) (hkn : '\n' ∉ k) (hvn : '\n' ∉ v)
    (k' : Str) (hne : k' ≠ k) :
    lookupEnv (parseEnvContent (writeEnvContent (upsert (parseEnvContent c) k v))) k'
      = lookupEnv (parseEnvContent c) k' := by
  have hWF : ∀ e ∈ parseEnvContent c, EntryWF e := fun e he => parseEnvContent_WF c he
  set M0 := parseEnvContent c with hM0def
  set M := upsert M0 k v with hMdef
  have hMne : M ≠ [] := upsert_ne_nil M0 k v
  have hMn : ∀ e ∈ M, '\n' ∉ renderEntry e := by
    intro e he hmem
    unfold renderEntry at hmem
    rcases mem_upsert he with h1 | h1
    · subst h1
      rcases List.mem_append.mp hmem with h2 | h2
      · exact hkn h2
      · rcases List.mem_cons.mp h2 with h3 | h3
        · exact absurd h3 (by decide)
        · exact hvn h3
    · obtain ⟨-, -, -, hk1, -, -, hv1⟩ := hWF e h1
      rcases List.mem_append.mp hmem with h2 | h2
      · exact hk1 h2
      · rcases List.mem_cons.mp h2 with h3 | h3
        · exact absurd h3 (by decide)
        · exact hv1 h3
  have hnd : (keysOf M).Nodup :=
    keysOf_upsert_nodup M0 k v (parseEnvContent_keys_nodup c)
  have hkey : ∀ e ∈ M, ∀ p, lineEntry (renderEntry e) = some p → p.1 = e.1 := by
    intro e he p hp
    rcases mem_upsert he with h1 | h1
    · subst h1
      exact lineEntry_render_key hkt hkeq hp
    · rw [lineEntry_render_self (hWF e h1)] at hp
      rw [← Option.some.inj hp]
  have hval : ∀ e ∈ M, e.1 = k' → lineEntry (renderEntry e) = some e := by
    intro e he hek
    rcases mem_upsert he with h1 | h1
    · exfalso
      apply hne
      rw [← hek, h1]
    · exact lineEntry_render_self (hWF e h1)
  show lookupEnv (parseEnvContent (writeEnvContent M)) k' = lookupEnv M0 k'
  unfold parseEnvContent
  rw [splitOnChar_writeEnvContent M hMne hMn, List.foldl_append]
  rw [show List.foldl parseLine (List.foldl parseLine [] (M.map renderEntry)) [[]]
      = List.foldl parseLine [] (M.map renderEntry) from by
    rw [List.foldl_cons, List.foldl_nil, parseLine_nil]]
  rw [lookupEnv_foldl_render M k' hnd hkey hval []]
  by_cases hk : k' ∈ keysOf M
  · rw [if_pos hk, hMdef]
    exact lookupEnv_upsert_ne M0 k v k' hne
  · rw [if_neg hk]
    have hk0 : k' ∉ keysOf M0 := by
      intro hc
      apply hk
      rw [hMdef, keysOf_upsert]
      by_cases h2 : k ∈ keysOf M0
      · rw [if_pos h2]; exact hc
      · rw [if_neg h2]; exact List.mem_append_left _ hc
    rw [lookupEnv_eq_none_of_not_mem hk0]
    rfl

/-- Claim C1 (amended): the configuration round-trip holds for every
key that is trimmed and free of `=` and newline characters, and every
non-empty value free of newline characters: after `saveConfig(k, v)`,
`getConfig(k)` returns `v`, and for every other key the value parsed
from the settings file and the result of `getConfig` are unchanged.
(The unamended claim fails for the empty-string value, for which
`getConfig` returns the documented default instead.) -/
theorem saveConfig_roundtrip (s : ConfigState) (k v : Str)
    (hv : v ≠ []) (hvn : '\n' ∉ v)
    (hkt : trimStr k = k) (hkeq : '=' ∉ k) (hkn : '\n' ∉ k) :
    getConfig (saveConfig s k v) k = some v ∧
    ∀ k' : Str, k' ≠ k →
      lookupEnv (parseEnvContent ((saveConfig s k v).file.getD [])) k'
        = lookupEnv (parseEnvContent (s.file.getD [])) k' ∧
      getConfig (saveConfig s k v) k' = getConfig s k' := by
  refine ⟨?_, fun k' hk' => ⟨?_, ?_⟩⟩
  · have hlook : lookupEnv (saveConfig s k v).env k = some v :=
      lookupEnv_upsert_self s.env k v
    unfold getConfig
    rw [hlook]
    dsimp only
    rw [if_neg hv]
  · have hfile : (saveConfig s k v).file
        = some (writeEnvContent (upsert (parseEnvContent (s.file.getD [])) k v)) := rfl
    rw [hfile, Option.getD_some]
    exact saveConfig_preserves_file (s.file.getD []) k v hkt hkeq hkn hvn k' hk'
  · have hlook : lookupEnv (saveConfig s k v).env k' = lookupEnv s.env k' :=
      lookupEnv_upsert_ne s.env k v k' hk'
    unfold getConfig
    rw [hlook]

/-- Witness for the claim C1 theorem: saving `SERVER_HOST=example.com`
over a file holding `SERVER_USER=alice` round-trips the new value and
leaves the other key's file entry unchanged. -/
theorem saveConfig_roundtrip_witness :
    getConfig (saveConfig (ConfigState.mk [] (some ("SERVER_USER=alice\n".toList)))
        ("SERVER_HOST".toList) ("example.com".toList)) ("SERVER_HOST".toList)
      = some ("example.com".toList) ∧
    lookupEnv (parseEnvContent ((saveConfig (ConfigState.mk [] (some ("SERVER_USER=alice\n".toList)))
        ("SERVER_HOST".toList) ("example.com".toList)).file.getD []))
      ("SERVER_USER".toList) = some ("alice".toList) := by
  have h := saveConfig_roundtrip (ConfigState.mk [] (some ("SERVER_USER=alice\n".toList)))
    ("SERVER_HOST".toList) ("example.com".toList)
    (by decide) (by decide) (by decide) (by decide) (by decide)
  have h2 := (h.2 ("SERVER_USER".toList) (by decide)).1
  exact ⟨h.1, by rw [h2]; decide⟩

/-! ## Claim theorems for the configuration store defaults -/

/-- Claim C6: loading the configuration when no settings file exists
yields the documented default for every recognized key via `getConfig`,
and does not write a settings file. -/
theorem loadConfig_defaults (k : Str) (hk : k ∈ RECOGNIZED_KEYS) :
    getConfig (loadConfig cfg0) k = DEFAULTS k ∧ (loadConfig cfg0).file = none := by
  refine ⟨?_, rfl⟩
  fin_cases hk <;> decide

/-- Witness for the claim C6 theorem at the key `SERVER_PORT`. -/
theorem loadConfig_defaults_witness :
    ("SERVER_PORT".toList ∈ RECOGNIZED_KEYS) ∧
    getConfig (loadConfig cfg0) ("SERVER_PORT".toList) = some ("22".toList) := by
  have h := loadConfig_defaults ("SERVER_PORT".toList) (by decide)
  exact ⟨by decide, h.1.trans (by decide)⟩

/-- Claim C9: saving the empty string for a recognized key is
unobservable through `getConfig`, which returns the documented default
because `process.env[key] || DEFAULTS[key]` treats the empty string as
falsy. -/
theorem saveConfig_empty_default (s : ConfigState) (k : Str) (hk : k ∈ RECOGNIZED_KEYS) :
    ∃ d, DEFAULTS k = some d ∧ getConfig (saveConfig s k []) k = some d := by
  obtain ⟨d, hd⟩ : ∃ d, DEFAULTS k = some d := by
    fin_cases hk <;> exact ⟨_, rfl⟩
  refine ⟨d, hd, ?_⟩
  have h1 : lookupEnv (saveConfig s k []).env k = some [] := lookupEnv_upsert_self s.env k []
  simp [getConfig, h1, hd]

/-- Witness for the claim C9 theorem: saving `""` for `SSH_KEY_NAME`
and reading it back yields the default `id_ed25519`. -/
theorem saveConfig_empty_default_witness :
    ("SSH_KEY_NAME".toList ∈ RECOGNIZED_KEYS) ∧
    getConfig (saveConfig cfg0 ("SSH_KEY_NAME".toList) []) ("SSH_KEY_NAME".toList)
      = some ("id_ed25519".toList) := by
  obtain ⟨d, hd, hg⟩ := saveConfig_empty_default cfg0 ("SSH_KEY_NAME".toList) (by decide)
  have hd' : d = "id_ed25519".toList := by
    have := hd.symm.trans
      (by decide : DEFAULTS ("SSH_KEY_NAME".toList) = some ("id_ed25519".toList))
    exact Option.some.inj this
  exact ⟨by decide, hd' ▸ hg⟩

/-- Counterexample to claim C1 as stated: the round-trip fails for the
value `""` — after `saveConfig("SSH_KEY_NAME", "")`, `getConfig`
returns the documented default `id_ed25519`, not the saved value. -/
theorem saveConfig_roundtrip_cex :
    getConfig (saveConfig cfg0 ("SSH_KEY_NAME".toList) []) ("SSH_KEY_NAME".toList)
      ≠ some ([] : Str) ∧
    getConfig (saveConfig cfg0 ("SSH_KEY_NAME".toList) []) ("SSH_KEY_NAME".toList)
      = some ("id_ed25519".toList) := by
  exact ⟨by decide, by decide⟩

/-! ## Claim theorems for the SFTP client wrapper -/

/-- Claim C3: every public operation of the transfer client ends every
session it successfully opens, on success and on error alike — the
event trace of each operation has as many `ended` events as `connected`
events. -/
theorem sftp_sessions_closed (w : SftpWorld) (cfg : ConfigState) (lp fn : Str)
    (rn : Option Str) (names : List Str) :
    sessionsBalanced (uploadFile w cfg lp rn).2 ∧
    sessionsBalanced (uploadFolder w cfg lp rn).2 ∧
    sessionsBalanced (listFiles w cfg).2 ∧
    sessionsBalanced (deleteFile w cfg fn).2 ∧
    sessionsBalanced (deleteMultipleFiles w cfg names).2 ∧
    sessionsBalanced (testConnection w).2 := by
  refine ⟨?_, ?_, ?_, ?_, ?_, ?_⟩
  · cases h : w.connect <;> simp [uploadFile, h, sessionsBalanced]
  · cases h : w.connect <;> simp [uploadFolder, h, sessionsBalanced]
  · cases h : w.connect <;> simp [listFiles, h, sessionsBalanced]
  · cases h : w.connect <;> simp [deleteFile, h, sessionsBalanced]
  · induction names with
    | nil => simp [deleteMultipleFiles, sessionsBalanced]
    | cons n rest ih =>
      simp only [deleteMultipleFiles, sessionsBalanced, List.count_append]
      have hd : sessionsBalanced (deleteFile w cfg n).2 := by
        cases h : w.connect <;> simp [deleteFile, h, sessionsBalanced]
      unfold sessionsBalanced at hd ih
      omega
  · cases h : w.connect <;> simp [testConnection, h, sessionsBalanced]

/-- Claim C2: `deleteMultipleFiles` returns exactly one result per
input name in submission order, each recording that name's own
success or failure (with the error message on failure), and a failing
item does not stop later items; in the three-target scenario where only
the second target is missing remotely, the results are success,
failure, success in order. -/
theorem deleteMultipleFiles_results (w : SftpWorld) (cfg : ConfigState) (names : List Str) :
    (deleteMultipleFiles w cfg names).1 = names.map (fun n =>
      match (deleteFile w cfg n).1 with
      | .ok _ => { filename := n, success := true, error := none }
      | .error m => { filename := n, success := false, error := some m }) ∧
    (deleteMultipleFiles missingBWorld cfg0
        ["a".toList, "b".toList, "c".toList]).1 =
      [{ filename := "a".toList, success := true, error := none },
       { filename := "b".toList, success := false, error := some ("No such file".toList) },
       { filename := "c".toList, success := true, error := none }] := by
  constructor
  · induction names with
    | nil => rfl
    | cons n rest ih => simp [deleteMultipleFiles, ih]
  · decide

/-- Claim C4: when the connection succeeds, `listFiles` returns the
empty list (not an error) if the remote directory does not exist, and
otherwise one normalized entry per listed object excluding `.` and
`..`. -/
theorem listFiles_spec (w : SftpWorld) (cfg : ConfigState)
    (h : w.connect = .ok ()) :
    (w.existsPath (getConfigStr cfg ("SERVER_DIRECTORY".toList)) = false →
      (listFiles w cfg).1 = .ok []) ∧
    (w.existsPath (getConfigStr cfg ("SERVER_DIRECTORY".toList)) = true →
      (listFiles w cfg).1 = .ok
        (((w.listPath (getConfigStr cfg ("SERVER_DIRECTORY".toList))).filter
            (fun it => it.name ≠ ".".toList && it.name ≠ "..".toList)).map
          normalizeEntry)) := by
  constructor
  · intro he
    unfold listFiles
    rw [h]
    dsimp only
    rw [he, if_pos rfl]
  · intro he
    unfold listFiles
    rw [h]
    dsimp only
    rw [he, if_neg (fun hc => Bool.noConfusion hc)]

/-- Witness for the claim C4 theorem on an oracle whose remote
directory is absent. -/
theorem listFiles_spec_witness :
    absentDirWorld.connect = .ok () ∧
    absentDirWorld.existsPath
      (getConfigStr cfg0 ("SERVER_DIRECTORY".toList)) = false ∧
    (listFiles absentDirWorld cfg0).1 = .ok [] := by
  have h := (listFiles_spec absentDirWorld cfg0 rfl).1 rfl
  exact ⟨rfl, rfl, h⟩

/-- Claim C8: a successful `uploadFile` with no explicit remote name
returns the base name of the local path as the remote name, and a
public URL that is exactly the fixed base URL, a slash, and that
name — so the URL ends with `/<basename>`. -/
theorem uploadFile_naming (w : SftpWorld) (cfg : ConfigState) (localPath : Str)
    (h1 : w.connect = .ok ())
    (h2 : w.mkdirRecursive (getConfigStr cfg ("SERVER_DIRECTORY".toList)) = .ok ())
    (h3 : w.fastPut localPath
        (posixJoin (getConfigStr cfg ("SERVER_DIRECTORY".toList)) (basename localPath))
        = .ok ()) :
    (uploadFile w cfg localPath none).1 =
      .ok { filename := basename localPath
            url := publicBase ++ '/' :: basename localPath } ∧
    ('/' :: basename localPath) <:+ (publicBase ++ '/' :: basename localPath) := by
  constructor
  · unfold uploadFile
    rw [h1]
    dsimp only [Option.getD]
    rw [h2]
    dsimp only
    rw [h3]
  · exact ⟨publicBase, rfl⟩

/-- Witness for the claim C8 theorem: uploading
`/home/user/report.pdf` yields the URL
`https://fileshare.ct-42210.com/report.pdf`, which ends with
`/report.pdf`. -/
theorem uploadFile_naming_witness :
    (uploadFile okWorld cfg0 ("/home/user/report.pdf".toList) none).1 =
      .ok { filename := "report.pdf".toList
            url := "https://fileshare.ct-42210.com/report.pdf".toList } ∧
    ("/report.pdf".toList) <:+ "https://fileshare.ct-42210.com/report.pdf".toList := by
  have h := uploadFile_naming okWorld cfg0 ("/home/user/report.pdf".toList) rfl rfl rfl
  refine ⟨h.1.trans (congrArg Except.ok (by decide)), ?_⟩
  exact ⟨"https://fileshare.ct-42210.com".toList, by decide⟩

/-! ## Claim theorems for the orchestrator and the selection layer -/

/-- Claim C5: if the user is configured and either the selection step
yields no selection or the confirmation answer is negative, the upload
command performs no transfer-client call (empty session trace), returns
normally, and the process exits with status 0. -/
theorem uploadCommand_cancel (configured : Bool) (entries : List FsItem)
    (pick : Nat) (confirmAnswer : Bool) (w : SftpWorld) (cfg : ConfigState)
    (hc : configured = true)
    (h : (selectFileOrFolder entries pick).result = none ∨ confirmAnswer = false) :
    uploadCommand configured entries pick confirmAnswer w cfg
      = (CmdResult.completed, []) ∧
    processExitCode (uploadCommand configured entries pick confirmAnswer w cfg).1 = 0 := by
  subst hc
  have hmain : uploadCommand true entries pick confirmAnswer w cfg
      = (CmdResult.completed, []) := by
    rcases h with h | h
    · simp [uploadCommand, h]
    · cases hsel : (selectFileOrFolder entries pick).result with
      | none => simp [uploadCommand, hsel]
      | some item => simp [uploadCommand, hsel, h]
  exact ⟨hmain, by rw [hmain]; rfl⟩

/-- Witness for the claim C5 theorem: a directory containing only a
hidden entry yields no selection, and the upload command completes with
no session events. -/
theorem uploadCommand_cancel_witness :
    uploadCommand true
      [{ name := ".config".toList, path := "/work/.config".toList,
         isDirectory := false, size := 10 }] 0 true okWorld cfg0
      = (CmdResult.completed, []) := by
  exact (uploadCommand_cancel true _ 0 true okWorld cfg0 rfl (Or.inl (by decide))).1

/-- Claim C10: `selectFileOrFolder` offers as choices exactly the
directory entries whose names do not start with a dot, and returns
`null` without prompting when no such entry exists. -/
theorem selectFileOrFolder_hidden (entries : List FsItem) (pick : Nat) :
    (entries.filter (fun it => !startsWithChar '.' it.name) = [] →
      selectFileOrFolder entries pick = { result := none, promptedChoices := none }) ∧
    (entries.filter (fun it => !startsWithChar '.' it.name) ≠ [] →
      (selectFileOrFolder entries pick).promptedChoices =
        some ((entries.filter (fun it => !startsWithChar '.' it.name)).map
          (fun it => (formatChoice it, it)))) := by
  constructor
  · intro he
    simp [selectFileOrFolder, he]
  · intro he
    simp [selectFileOrFolder, List.isEmpty_iff, he]

/-- Witness for the claim C10 theorem: a directory with only hidden
entries produces no prompt and a `null` result. -/
theorem selectFileOrFolder_hidden_witness :
    selectFileOrFolder
      [{ name := ".env".toList, path := "/w/.env".toList, isDirectory := false, size := 3 },
       { name := ".git".toList, path := "/w/.git".toList, isDirectory := true, size := 0 }] 5
      = { result := none, promptedChoices := none } := by
  exact (selectFileOrFolder_hidden _ 5).1 (by decide)

/-! ## Claim theorem for the port validator -/

/-- Claim C7: the port-change validator rejects `"0"`, `"70000"` and
`"abc"` with an error message, accepts `"22"` and `"65535"`, and in
general accepts an input exactly when JavaScript `parseInt` yields an
integer between 1 and 65535. -/
theorem portValidator_spec :
    portValidator ("0".toList) = .error ("Port must be a number between 1 and 65535".toList) ∧
    portValidator ("70000".toList) = .error ("Port must be a number between 1 and 65535".toList) ∧
    portValidator ("abc".toList) = .error ("Port must be a number between 1 and 65535".toList) ∧
    portValidator ("22".toList) = .ok ∧
    portValidator ("65535".toList) = .ok ∧
    ∀ input : Str, portValidator input = .ok ↔
      ∃ n : Int, jsParseInt input = some n ∧ 1 ≤ n ∧ n ≤ 65535 := by
  refine ⟨by decide, by decide, by decide, by decide, by decide, ?_⟩
  intro input
  unfold portValidator
  cases h : jsParseInt input with
  | none => simp
  | some n =>
    dsimp only
    constructor
    · intro hok
      by_cases hr : n < 1 ∨ n > 65535
      · rw [if_pos hr] at hok; cases hok
      · exact ⟨n, rfl, by omega, by omega⟩
    · rintro ⟨m, hm, h1, h2⟩
      cases hm
      rw [if_neg (by omega)]

end Fileshare
